import Mathlib

/-!
Shallow embedding of the design-system orchestration core of
`src/packages/tailwindcss/src/design-system.ts`, together with proofs about
its caching, ordering, theme-resolution, batch-compilation and
variable-tracking behaviour.

Modelling conventions:
* JS strings are modelled as `String` where only equality matters and as
  `List Char` where character-level operations (`lastIndexOf`, `slice`,
  `trim`, tokenizing) matter.
* Object identity of parse results is modelled by handing every invocation
  of an external compute function a fresh allocation stamp (a `Nat`): two
  results are "the identical object" exactly when the memo table returned
  the stored entry instead of invoking the external function again.
* External collaborators (`parseCandidate`, `parseVariant`,
  `compileAstNodes`, `substituteFunctions`, `compileCandidates`,
  `optimizeAst`, `toCss`, `withAlpha`, `theme.get`, `variants.compare`) are
  universally quantified function parameters, exactly as the spec treats
  them (interface contracts only).
* A JS exception boundary is modelled with `Except`: `substituteFunctions`
  may return `Except.error`, and the memoized compiler maps that to `[]`
  and never lets it escape (its own result type is a plain list).
-/

/-- Association-list lookup modelling the key-value maps that back every
cache of the design system. -/
def alookup {κ ρ : Type} [DecidableEq κ] : List (κ × ρ) → κ → Option ρ
  | [], _ => none
  | (k', r) :: rest, k => if k = k' then some r else alookup rest k

/-- Modelled from the spec: the state of one memoizing map (`DefaultMap`,
`src/packages/tailwindcss/src/utils/default-map.ts`, which is not included
under `src/`; section 4.1 of the spec gives its contract: on first request
invoke the external function, store the result keyed by the input, return
it; on repeat requests return the stored result without re-invoking).
`cache` is the stored table, `log` records every invocation of the external
compute function (in order), and `fresh` is an allocation counter whose
value is handed to each invocation as an identity stamp, so that object
identity of results is observable in the pure model. -/
structure CacheState (κ ρ : Type) where
  cache : List (κ × ρ)
  log : List κ
  fresh : Nat

/-- The state of a cache that has never been asked anything. -/
def CacheState.empty {κ ρ : Type} : CacheState κ ρ := ⟨[], [], 0⟩

/-- Modelled from the spec: one `DefaultMap` lookup. A hit returns the stored
value and leaves the state unchanged; a miss invokes the external compute
function once (with a fresh identity stamp), appends the result to the table
and logs the invocation. -/
def cacheGet {κ ρ : Type} [DecidableEq κ] (compute : κ → Nat → ρ)
    (st : CacheState κ ρ) (k : κ) : ρ × CacheState κ ρ :=
  match alookup st.cache k with
  | some r => (r, st)
  | none =>
    let r := compute k st.fresh
    (r, ⟨st.cache ++ [(k, r)], st.log ++ [k], st.fresh + 1⟩)

/-- Run a sequence of cache lookups, threading the state; models an arbitrary
sequence of calls against one design system. -/
def runGets {κ ρ : Type} [DecidableEq κ] (compute : κ → Nat → ρ) :
    CacheState κ ρ → List κ → CacheState κ ρ
  | st, [] => st
  | st, k :: ks => runGets compute (cacheGet compute st k).2 ks

/-- The `parsedCandidates` cache of `buildDesignSystem` (design-system.ts line
45): a memoized `Array.from(parseCandidate(candidate, designSystem))`. The
external parser is a parameter; the `Nat` argument is the identity stamp of
the freshly allocated result array. -/
def parseCandidateCached {γ : Type} (parseCandidateExt : String → Nat → List γ)
    (st : CacheState String (List γ)) (s : String) :
    List γ × CacheState String (List γ) :=
  cacheGet parseCandidateExt st s

/-- The `parsedVariants` cache of `buildDesignSystem` (design-system.ts line
44): a memoized `parseVariant(variant, designSystem)` whose value may be the
explicit null variant, modelled as `Option`. -/
def parseVariantCached {ν : Type} (parseVariantExt : String → Nat → Option ν)
    (st : CacheState String (Option ν)) (s : String) :
    Option ν × CacheState String (Option ν) :=
  cacheGet parseVariantExt st s

/-- The compute function of the `compiledAstNodes` cache (design-system.ts
lines 49-69): compile the candidate with the external compiler, then run
`substituteFunctions` over the nodes; if substitution signals an error the
whole result is discarded and the empty sequence is produced instead, and on
success the substituted sequence is produced. In-place mutation of the node
records is modelled by `substituteFunctions` returning the updated sequence.
The result type is a plain list: no exception can escape this boundary. -/
def compileAstNodesMemoFn {γ ν : Type} (compileAstNodesExt : γ → List ν)
    (substituteFunctions : List ν → Except Unit (List ν)) : γ → Nat → List ν :=
  fun c _ =>
    match substituteFunctions (compileAstNodesExt c) with
    | Except.error _ => []
    | Except.ok ast => ast

/-- The memoized `compileAstNodes` of the design system (design-system.ts
lines 135-137): a `cacheGet` on the `compiledAstNodes` cache, keyed by the
Candidate value (object identity of candidates is modelled by `DecidableEq γ`
on an opaque candidate type). -/
def compiledAstNodesGet {γ ν : Type} [DecidableEq γ]
    (compileAstNodesExt : γ → List ν)
    (substituteFunctions : List ν → Except Unit (List ν))
    (st : CacheState γ (List ν)) (c : γ) : List ν × CacheState γ (List ν) :=
  cacheGet (compileAstNodesMemoFn compileAstNodesExt substituteFunctions) st c

/-- The batch facade `candidatesToCss` (design-system.ts lines 95-117). Per
class name: compile just that class through the external multi-class
compiler (which reports invalidity through a callback, modelled as the
`Bool` component, a fresh local per iteration), optimize the nodes, and emit
`null` when optimization yields no nodes or the invalid flag fired,
otherwise the serialized CSS text. -/
def candidatesToCss {ν : Type} (compileCandidates : String → List ν × Bool)
    (optimizeAst : List ν → List ν) (toCss : List ν → String)
    (classes : List String) : List (Option String) :=
  classes.map fun className =>
    let compiled := compileCandidates className
    let astNodes := optimizeAst compiled.1
    if astNodes.length = 0 ∨ compiled.2 then none else some (toCss astNodes)

/-- The order relation a JS comparator-based sort establishes: `x` may stay
before `y` when the comparator is nonpositive on `(x, y)`. The registry
comparator receives the raw cached values, nulls included, exactly as
`variants.sort((a, z) => this.variants.compare(a, z))` passes them. -/
def jsSortLe {α : Type} (cmp : Option α → Option α → Int) (x y : Option α) : Prop :=
  cmp x y ≤ 0

instance {α : Type} (cmp : Option α → Option α → Int) : DecidableRel (jsSortLe cmp) :=
  fun x y => inferInstanceAs (Decidable (cmp x y ≤ 0))

/-- The index-assignment loop of `getVariantOrder` (design-system.ts lines
146-158), translated clause by clause: a null variant is skipped entirely;
while no previous variant exists the index stays; otherwise the index
increments exactly when the comparison with the predecessor is nonzero; the
visited variant is inserted with the current index and becomes the
predecessor. -/
def getVariantOrderLoop {α : Type} (cmp : Option α → Option α → Int) :
    List (Option α) → Option α → Nat → List (Option α × Nat)
  | [], _, _ => []
  | none :: rest, prevVariant, index => getVariantOrderLoop cmp rest prevVariant index
  | some v :: rest, none, index =>
    (some v, index) :: getVariantOrderLoop cmp rest (some v) index
  | some v :: rest, some p, index =>
    let index' := if cmp (some p) (some v) ≠ 0 then index + 1 else index
    (some v, index') :: getVariantOrderLoop cmp rest (some v) index'

/-- `getVariantOrder` (design-system.ts lines 138-161): sort every cached
variant value with the registry comparator (the JS engine sort is modelled
by comparator-based insertion sort, a stable comparator-sorted permutation),
then assign group indices in one pass. The returned map is modelled as the
list of `set` calls; a key is set at most once per distinct variant. -/
def getVariantOrder {α : Type} (cmp : Option α → Option α → Int)
    (cached : List (Option α)) : List (Option α × Nat) :=
  getVariantOrderLoop cmp (List.insertionSort (jsSortLe cmp) cached) none 0

/-- Proof-side reformulation of the assignment loop that consumes the already
null-filtered variant list; used to relate the source loop to the spec's
description. -/
def specAssignFrom {α : Type} (cmp : Option α → Option α → Int)
    (prev : Option α) (index : Nat) : List α → List (Option α × Nat)
  | [] => []
  | v :: rest =>
    let index' :=
      match prev with
      | none => index
      | some p => if cmp (some p) (some v) ≠ 0 then index + 1 else index
    (some v, index') :: specAssignFrom cmp (some v) index' rest

/-- Written from the spec's words (section 4.4), tail of the grouping pass:
each subsequent variant gets the same index as its predecessor if the
comparator reports them equivalent (comparator result 0), otherwise the
index increments. -/
def specVariantOrderGo {α : Type} (cmp : Option α → Option α → Int)
    (p : α) (index : Nat) : List α → List (Option α × Nat)
  | [] => []
  | v :: rest =>
    let index' := if cmp (some p) (some v) = 0 then index else index + 1
    (some v, index') :: specVariantOrderGo cmp v index' rest

/-- Written from the spec's words (section 4.4): take every variant in the
cache, sort with the comparator, exclude the explicit "no variant" value
entirely, give the first variant index 0, and continue with the grouping
pass. Stated separately from `getVariantOrder` so their equality is a real
refinement statement. -/
def specVariantOrder {α : Type} (cmp : Option α → Option α → Int)
    (cached : List (Option α)) : List (Option α × Nat) :=
  match (List.insertionSort (jsSortLe cmp) cached).filterMap id with
  | [] => []
  | v :: rest => (some v, 0) :: specVariantOrderGo cmp v 0 rest

/-- Comparator restricted to actual variants; the relation the sorted,
null-filtered variant sequence is pairwise ordered by. -/
def cmpSomeLe {α : Type} (cmp : Option α → Option α → Int) (a b : α) : Prop :=
  cmp (some a) (some b) ≤ 0

/-- JS `String.prototype.trim`, on the character-list model of strings. -/
def jsTrim (s : List Char) : List Char :=
  ((s.dropWhile Char.isWhitespace).reverse.dropWhile Char.isWhitespace).reverse

/-- JS `String.prototype.lastIndexOf` for a single character: `none` models
the -1 result. -/
def jsLastIndexOf (c : Char) : List Char → Option Nat
  | [] => none
  | x :: xs =>
    match jsLastIndexOf c xs with
    | some i => some (i + 1)
    | none => if x = c then some 0 else none

/-- The `string | null` result type of the theme collaborator's `get`. -/
inductive NullableStr where
  | nul : NullableStr
  | val : List Char → NullableStr
deriving DecidableEq

/-- The modifier extraction of `resolveThemeValue` (design-system.ts lines
164-171): when the path contains a `/`, the part after the last one
(trimmed) is the modifier and the part before it (trimmed) is the lookup
path; otherwise the whole untrimmed string is the lookup path and there is
no modifier. -/
def resolveThemeSplit (path : List Char) : List Char × Option (List Char) :=
  match jsLastIndexOf '/' path with
  | some i => (jsTrim (path.take i), some (jsTrim (path.drop (i + 1))))
  | none => (path, none)

/-- The `?? undefined` coercion on the theme lookup (design-system.ts line
173): a null from the collaborator becomes undefined at the interface. -/
def undefinedCoalesce : NullableStr → Option (List Char)
  | NullableStr.nul => none
  | NullableStr.val v => some v

/-- `resolveThemeValue` (design-system.ts lines 163-181). The final
conditional is JS truthiness: `if (modifier && themeValue)` applies the
alpha transform only when the modifier is non-null and non-empty and the
resolved value is defined and non-empty; otherwise the resolved value is
returned unchanged. -/
def resolveThemeValue (withAlpha : List Char → List Char → List Char)
    (themeGet : List Char → NullableStr) (path : List Char) : Option (List Char) :=
  let sp := resolveThemeSplit path
  let themeValue := undefinedCoalesce (themeGet sp.1)
  match sp.2, themeValue with
  | some m, some v => if m ≠ [] ∧ v ≠ [] then some (withAlpha v m) else some v
  | _, _ => themeValue

/-- Modelled from the spec: the token tree of the generic CSS value tokenizer
(`src/packages/tailwindcss/src/value-parser.ts`, which is not included under
`src/`; section 6 of the spec specifies `parse(raw) -> token tree` and a
walk with a skip-subtree signal, and section 4.3 names the node kinds the
tracker inspects: function-call tokens with argument tokens, and bare word
tokens). -/
inductive ValueAstNode where
  | word : List Char → ValueAstNode
  | separator : Char → ValueAstNode
  | fn : List Char → List ValueAstNode → ValueAstNode

/-- Characters that end a word token in the modelled tokenizer. -/
def valueWordStop (c : Char) : Bool :=
  c = '(' || c = ')' || c = ',' || c = ' '

/-- Modelled from the spec: the generic CSS value tokenizer. Reads a
whitespace or comma as a separator token, a name directly followed by `(` as
a function-call token whose arguments are tokenized recursively up to the
matching `)`, and any other maximal run of non-delimiter characters as a
word token. Fuel-indexed for termination; the fuel is sized to the input. -/
def parseValueNodes : Nat → List Char → List ValueAstNode × List Char
  | 0, cs => ([], cs)
  | _ + 1, [] => ([], [])
  | fuel + 1, c :: cs =>
    if c = ')' then ([], c :: cs)
    else if c = ',' ∨ c = ' ' then
      let rest := parseValueNodes fuel cs
      (ValueAstNode.separator c :: rest.1, rest.2)
    else
      let w := (c :: cs).takeWhile (fun d => !(valueWordStop d))
      let after := (c :: cs).drop w.length
      match after with
      | '(' :: args0 =>
        let args := parseValueNodes fuel args0
        let rest1 :=
          match args.2 with
          | ')' :: r => r
          | r => r
        let rest := parseValueNodes fuel rest1
        (ValueAstNode.fn w args.1 :: rest.1, rest.2)
      | _ =>
        let rest := parseValueNodes fuel after
        (ValueAstNode.word w :: rest.1, rest.2)

/-- Modelled from the spec: `ValueParser.parse`. -/
def parseValue (raw : List Char) : List ValueAstNode :=
  (parseValueNodes (raw.length + 1) raw).1

/-- Modelled from the spec: the visitor result of `ValueParser.walk` — either
continue into a function node's children or skip that subtree. -/
inductive ValueWalkAction where
  | Continue : ValueWalkAction
  | Skip : ValueWalkAction

/-- Modelled from the spec: `ValueParser.walk`, with the visitor's side
effects made explicit as state threading. Each node is visited in order; a
function node's children are then traversed unless the visitor answered with
the skip signal. Fuel-indexed so the recursion is structural (and hence
evaluable); the fuel bounds the traversal depth and is sized to the input at
every use site, so it is never exhausted on the values it is run on. -/
def walkValue {σ : Type} (visit : σ → ValueAstNode → σ × ValueWalkAction) :
    Nat → σ → List ValueAstNode → σ
  | 0, s, _ => s
  | _ + 1, s, [] => s
  | fuel + 1, s, ValueAstNode.word w :: ns =>
    walkValue visit fuel (visit s (ValueAstNode.word w)).1 ns
  | fuel + 1, s, ValueAstNode.separator c :: ns =>
    walkValue visit fuel (visit s (ValueAstNode.separator c)).1 ns
  | fuel + 1, s, ValueAstNode.fn name children :: ns =>
    let visited := visit s (ValueAstNode.fn name children)
    let s' :=
      match visited.2 with
      | ValueWalkAction.Skip => visited.1
      | ValueWalkAction.Continue => walkValue visit fuel visited.1 children
    walkValue visit fuel s' ns

/-- The inner visitor of `trackUsedVariables` (design-system.ts lines 75-79):
mark every word argument whose first two characters are `-`, and always
continue. -/
def trackUsedVariablesInner (marks : List (List Char)) (child : ValueAstNode) :
    List (List Char) × ValueWalkAction :=
  match child with
  | ValueAstNode.word w =>
    match w with
    | '-' :: '-' :: _ => (marks ++ [w], ValueWalkAction.Continue)
    | _ => (marks, ValueWalkAction.Continue)
  | _ => (marks, ValueWalkAction.Continue)

/-- The outer visitor of `trackUsedVariables` (design-system.ts lines 72-82):
on a `var(...)` call, manually walk that call's own arguments with the inner
visitor and tell the outer traversal to skip the subtree; anything else is
left to the outer traversal. -/
def trackUsedVariablesOuter (fuel : Nat) (marks : List (List Char))
    (node : ValueAstNode) : List (List Char) × ValueWalkAction :=
  match node with
  | ValueAstNode.fn name children =>
    if name = "var".data then
      (walkValue trackUsedVariablesInner fuel marks children, ValueWalkAction.Skip)
    else (marks, ValueWalkAction.Continue)
  | _ => (marks, ValueWalkAction.Continue)

/-- The sequence of `theme.markUsedVariable` calls one scan of
`trackUsedVariables` performs on a raw value string (design-system.ts lines
71-85). The walk fuel is sized to the raw string, which bounds the token
tree's depth and size. -/
def trackUsedVariablesMarks (raw : List Char) : List (List Char) :=
  walkValue (trackUsedVariablesOuter (raw.length + 1)) (raw.length + 1) []
    (parseValue raw)

/-- Concrete key function for the variant-comparator counterexample. -/
def keyEx : Option Nat → Int
  | some 0 => 1
  | some 1 => 1
  | _ => 0

/-- Concrete registry comparator: a consistent total preorder induced by
`keyEx` (so it is a legitimate `variants.compare`). -/
def cmpEx (x y : Option Nat) : Int := keyEx x - keyEx y

/-- Concrete variant parse-cache contents for the ordering claims. -/
def cachedEx : List (Option Nat) := [some 0, some 1, some 2]

/-- Concrete `withAlpha` collaborator: appends the modifier after a slash, so
applying it to a value is observable. -/
def waEx (v m : List Char) : List Char := v ++ '/' :: m

/-- Concrete theme collaborator: `--x` resolves to the empty string, `--y`
resolves to `red`, everything else is absent (null). -/
def tgEx (p : List Char) : NullableStr :=
  if p = "--x".data then NullableStr.val []
  else if p = "--y".data then NullableStr.val ("red".data)
  else NullableStr.nul

/-- Concrete multi-class compiler stub for the batch facade witness. -/
def ccW (s : String) : List Nat × Bool :=
  if s = "garbage-!!" then ([], true)
  else if s = "valid-class" then ([1], false)
  else ([2], false)

/-- Concrete AST optimizer stub (identity). -/
def optW (ns : List Nat) : List Nat := ns

/-- Concrete serializer stub. -/
def tcW (ns : List Nat) : String := if ns = [1] then "css1" else "css2"

/-- Concrete external candidate compiler for the cache witnesses. -/
def compileExtW (c : Nat) : List Nat := [c]

/-- Concrete substitution pass that always succeeds. -/
def substOkW (l : List Nat) : Except Unit (List Nat) := Except.ok l

/-- Concrete substitution pass that always fails. -/
def substFailW (_ : List Nat) : Except Unit (List Nat) := Except.error ()

/-- Cache well-formedness: the invocation log has no duplicates and holds
exactly the cached keys. Every state reachable from the empty cache
satisfies it; it is what makes "at most one external invocation per distinct
input" true. -/
def GoodState {κ ρ : Type} [DecidableEq κ] (st : CacheState κ ρ) : Prop :=
  st.log.Nodup ∧ ∀ k, k ∈ st.log ↔ (alookup st.cache k).isSome

lemma alookup_append_of_eq_some {κ ρ : Type} [DecidableEq κ] {l : List (κ × ρ)}
    {k : κ} {r : ρ} (l₂ : List (κ × ρ)) (h : alookup l k = some r) :
    alookup (l ++ l₂) k = some r := by
  induction l with
  | nil => simp [alookup] at h
  | cons hd tl ih =>
    obtain ⟨k', r'⟩ := hd
    by_cases hk : k = k'
    · simpa [alookup, hk] using h
    · simp only [alookup, if_neg hk] at h ⊢
      exact ih h

lemma alookup_append_single_of_eq_none {κ ρ : Type} [DecidableEq κ]
    {l : List (κ × ρ)} {k : κ} (r : ρ) (h : alookup l k = none) :
    alookup (l ++ [(k, r)]) k = some r := by
  induction l with
  | nil => simp [alookup]
  | cons hd tl ih =>
    obtain ⟨k', r'⟩ := hd
    by_cases hk : k = k'
    · simp [alookup, hk] at h
    · simp only [alookup, if_neg hk] at h ⊢
      exact ih h

lemma alookup_append_single_ne {κ ρ : Type} [DecidableEq κ]
    {l : List (κ × ρ)} {k k' : κ} (r : ρ) (h : k ≠ k') :
    alookup (l ++ [(k', r)]) k = alookup l k := by
  induction l with
  | nil => simp [alookup, h]
  | cons hd tl ih =>
    obtain ⟨k₀, r₀⟩ := hd
    by_cases hk : k = k₀
    · simp [alookup, hk]
    · simp only [alookup, if_neg hk]
      exact ih

lemma alookup_append_single_isSome {κ ρ : Type} [DecidableEq κ]
    (l : List (κ × ρ)) (k k' : κ) (r : ρ) :
    (alookup (l ++ [(k', r)]) k).isSome ↔ (alookup l k).isSome ∨ k = k' := by
  induction l with
  | nil => by_cases hk : k = k' <;> simp [alookup, hk]
  | cons hd tl ih =>
    obtain ⟨k₀, r₀⟩ := hd
    by_cases hk : k = k₀
    · simp [alookup, hk]
    · simpa [alookup, if_neg hk] using ih

lemma alookup_append_single_cases {κ ρ : Type} [DecidableEq κ]
    {l : List (κ × ρ)} {k k' : κ} {r r' : ρ}
    (h : alookup (l ++ [(k', r')]) k = some r) :
    alookup l k = some r ∨ (k = k' ∧ r = r') := by
  by_cases hk : k = k'
  · subst hk
    cases hl : alookup l k with
    | none =>
      right
      have := alookup_append_single_of_eq_none r' hl
      rw [this] at h
      exact ⟨rfl, (Option.some.injEq _ _ ▸ h).symm⟩
    | some r₀ =>
      left
      rw [alookup_append_of_eq_some _ hl] at h
      exact h
  · left
    rwa [alookup_append_single_ne _ hk] at h

lemma cacheGet_of_cached {κ ρ : Type} [DecidableEq κ] (compute : κ → Nat → ρ)
    {st : CacheState κ ρ} {k : κ} {r : ρ} (h : alookup st.cache k = some r) :
    cacheGet compute st k = (r, st) := by
  simp [cacheGet, h]

lemma cacheGet_cache_self {κ ρ : Type} [DecidableEq κ] (compute : κ → Nat → ρ)
    (st : CacheState κ ρ) (k : κ) :
    alookup (cacheGet compute st k).2.cache k = some (cacheGet compute st k).1 := by
  cases h : alookup st.cache k with
  | some r => simp [cacheGet, h]
  | none => simpa [cacheGet, h] using alookup_append_single_of_eq_none _ h

lemma cacheGet_cache_preserve {κ ρ : Type} [DecidableEq κ] (compute : κ → Nat → ρ)
    {st : CacheState κ ρ} {k : κ} {r : ρ} (k' : κ) (h : alookup st.cache k = some r) :
    alookup (cacheGet compute st k').2.cache k = some r := by
  cases h' : alookup st.cache k' with
  | some r' => simpa [cacheGet, h'] using h
  | none => simpa [cacheGet, h'] using alookup_append_of_eq_some _ h

lemma cacheGet_log_preserve {κ ρ : Type} [DecidableEq κ] (compute : κ → Nat → ρ)
    {st : CacheState κ ρ} {k : κ} {r : ρ} (k' : κ) (h : alookup st.cache k = some r) :
    (cacheGet compute st k').2.log.count k = st.log.count k := by
  cases h' : alookup st.cache k' with
  | some r' => simp [cacheGet, h']
  | none =>
    have hkk : k ≠ k' := by
      intro he
      rw [he, h'] at h
      exact Option.noConfusion h
    simp [cacheGet, h', List.count_append, List.count_singleton', hkk]

lemma runGets_preserve {κ ρ : Type} [DecidableEq κ] (compute : κ → Nat → ρ)
    {st : CacheState κ ρ} {k : κ} {r : ρ} (ks : List κ) (h : alookup st.cache k = some r) :
    alookup (runGets compute st ks).cache k = some r ∧
      (runGets compute st ks).log.count k = st.log.count k := by
  induction ks generalizing st with
  | nil => exact ⟨h, rfl⟩
  | cons k' ks ih =>
    have h1 := cacheGet_cache_preserve compute k' h
    have h2 := cacheGet_log_preserve compute k' h
    have := ih h1
    exact ⟨this.1, this.2.trans h2⟩

lemma runGets_append {κ ρ : Type} [DecidableEq κ] (compute : κ → Nat → ρ)
    (st : CacheState κ ρ) (l₁ l₂ : List κ) :
    runGets compute st (l₁ ++ l₂) = runGets compute (runGets compute st l₁) l₂ := by
  induction l₁ generalizing st with
  | nil => rfl
  | cons k ks ih => simpa [runGets] using ih _

lemma goodState_empty {κ ρ : Type} [DecidableEq κ] :
    GoodState (CacheState.empty : CacheState κ ρ) := by
  constructor
  · exact List.nodup_nil
  · intro k
    simp [CacheState.empty, alookup]

lemma goodState_cacheGet {κ ρ : Type} [DecidableEq κ] (compute : κ → Nat → ρ)
    {st : CacheState κ ρ} (k : κ) (h : GoodState st) :
    GoodState (cacheGet compute st k).2 := by
  cases h' : alookup st.cache k with
  | some r => simpa [cacheGet, h'] using h
  | none =>
    have hk : k ∉ st.log := by
      intro hmem
      have := (h.2 k).mp hmem
      rw [h'] at this
      simp at this
    constructor
    · simp only [cacheGet, h']
      exact List.Nodup.append h.1 (List.nodup_singleton k)
        (by simpa [List.disjoint_singleton] using hk)
    · intro k'
      simp only [cacheGet, h', List.mem_append, List.mem_singleton]
      rw [alookup_append_single_isSome]
      constructor
      · rintro (hm | hm)
        · exact Or.inl ((h.2 k').mp hm)
        · exact Or.inr hm
      · rintro (hm | hm)
        · exact Or.inl ((h.2 k').mpr hm)
        · exact Or.inr hm

lemma goodState_runGets {κ ρ : Type} [DecidableEq κ] (compute : κ → Nat → ρ)
    {st : CacheState κ ρ} (ks : List κ) (h : GoodState st) :
    GoodState (runGets compute st ks) := by
  induction ks generalizing st with
  | nil => exact h
  | cons k ks ih => exact ih (goodState_cacheGet compute k h)

lemma count_le_one_of_goodState {κ ρ : Type} [DecidableEq κ]
    {st : CacheState κ ρ} (h : GoodState st) (k : κ) : st.log.count k ≤ 1 :=
  List.nodup_iff_count_le_one.mp h.1 k

lemma cacheGet_cache_values {κ ρ : Type} [DecidableEq κ] (compute : κ → Nat → ρ)
    {st : CacheState κ ρ} (k' : κ)
    (h : ∀ k r, alookup st.cache k = some r → ∃ n, r = compute k n) :
    ∀ k r, alookup (cacheGet compute st k').2.cache k = some r → ∃ n, r = compute k n := by
  intro k r hr
  cases h' : alookup st.cache k' with
  | some r' =>
    rw [cacheGet_of_cached compute h'] at hr
    exact h k r hr
  | none =>
    simp only [cacheGet, h'] at hr
    rcases alookup_append_single_cases hr with hcase | hcase
    · exact h k r hcase
    · exact ⟨st.fresh, by rw [hcase.2, hcase.1]⟩

lemma runGets_cache_values {κ ρ : Type} [DecidableEq κ] (compute : κ → Nat → ρ)
    (ks : List κ) :
    ∀ k r, alookup (runGets compute CacheState.empty ks).cache k = some r →
      ∃ n, r = compute k n := by
  have base : ∀ (st : CacheState κ ρ),
      (∀ k r, alookup st.cache k = some r → ∃ n, r = compute k n) →
      ∀ k r, alookup (runGets compute st ks).cache k = some r → ∃ n, r = compute k n := by
    induction ks with
    | nil => exact fun st h => h
    | cons k' ks ih =>
      intro st h
      exact ih _ (cacheGet_cache_values compute k' h)
  refine base _ ?_
  intro k r hr
  simp [CacheState.empty, alookup] at hr

lemma runGets_not_seen {κ ρ : Type} [DecidableEq κ] (compute : κ → Nat → ρ)
    (ks : List κ) {st : CacheState κ ρ} {k : κ}
    (hcache : alookup st.cache k = none) (hlog : k ∉ st.log) (hks : k ∉ ks) :
    alookup (runGets compute st ks).cache k = none ∧ k ∉ (runGets compute st ks).log := by
  induction ks generalizing st with
  | nil => exact ⟨hcache, hlog⟩
  | cons k' ks ih =>
    have hne : k ≠ k' := fun he => hks (by rw [he]; exact List.mem_cons_self _ _)
    have hks' : k ∉ ks := fun hm => hks (List.mem_cons_of_mem _ hm)
    cases h' : alookup st.cache k' with
    | some r' =>
      have hstep : runGets compute st (k' :: ks) =
          runGets compute (cacheGet compute st k').2 ks := rfl
      rw [hstep, cacheGet_of_cached compute h']
      exact ih hcache hlog hks'
    | none =>
      have h1 : alookup (cacheGet compute st k').2.cache k = none := by
        simp only [cacheGet, h']
        rw [alookup_append_single_ne _ hne]
        exact hcache
      have h2 : k ∉ (cacheGet compute st k').2.log := by
        simp only [cacheGet, h', List.mem_append, List.mem_singleton]
        rintro (hm | hm)
        · exact hlog hm
        · exact hne hm
      exact ih h1 h2 hks'

/-- C1: for a fixed design system, every call to `parseCandidate(s)` returns
the identity-same array (the value produced by the single external parse
invocation, stamped with its allocation id, is returned again after any
interleaved sequence of further lookups), every call to `parseVariant(s)`
returns the identity-same Variant-or-null, and over any call sequence the
external parse function is invoked at most once per distinct input string
(the invocation log counts each string at most once). -/
theorem parse_caches_identity_once {γ ν : Type}
    (parseCandidateExt : String → Nat → List γ)
    (parseVariantExt : String → Nat → Option ν)
    (ks ks' : List String) (s : String) :
    (parseCandidateCached parseCandidateExt
        (runGets parseCandidateExt CacheState.empty (ks ++ s :: ks')) s).1 =
      (parseCandidateCached parseCandidateExt
        (runGets parseCandidateExt CacheState.empty ks) s).1 ∧
    (runGets parseCandidateExt CacheState.empty ks).log.count s ≤ 1 ∧
    (parseVariantCached parseVariantExt
        (runGets parseVariantExt CacheState.empty (ks ++ s :: ks')) s).1 =
      (parseVariantCached parseVariantExt
        (runGets parseVariantExt CacheState.empty ks) s).1 ∧
    (runGets parseVariantExt CacheState.empty ks).log.count s ≤ 1 := by
  have stable : ∀ (ρ : Type) (f : String → Nat → ρ) (st : CacheState String ρ),
      (cacheGet f (runGets f st (s :: ks')) s).1 = (cacheGet f st s).1 := by
    intro ρ f st
    have h1 := cacheGet_cache_self f st s
    have h2 := (runGets_preserve f ks' h1).1
    show (cacheGet f (runGets f (cacheGet f st s).2 ks') s).1 = (cacheGet f st s).1
    rw [cacheGet_of_cached f h2]
  constructor
  · rw [runGets_append]
    exact stable _ parseCandidateExt _
  refine ⟨?_, ?_, ?_⟩
  · exact count_le_one_of_goodState
      (goodState_runGets parseCandidateExt ks goodState_empty) s
  · rw [runGets_append]
    exact stable _ parseVariantExt _
  · exact count_le_one_of_goodState
      (goodState_runGets parseVariantExt ks goodState_empty) s

/-- C2: when `substituteFunctions` signals an error for a candidate's
compiled nodes, the memoized `compileAstNodes` returns the empty sequence,
caches the empty sequence for that candidate, and over any further sequence
of lookups the cached empty sequence persists and the compute function is
never invoked again for that candidate (the invocation log for it never
grows). No exception propagates: the result type of the cached compiler is
a plain list. -/
theorem compileAstNodes_failure_contained {γ ν : Type} [DecidableEq γ]
    (compileAstNodesExt : γ → List ν)
    (substituteFunctions : List ν → Except Unit (List ν))
    (ks : List γ) (c : γ)
    (hfail : substituteFunctions (compileAstNodesExt c) = Except.error ()) :
    (compiledAstNodesGet compileAstNodesExt substituteFunctions
        (runGets (compileAstNodesMemoFn compileAstNodesExt substituteFunctions)
          CacheState.empty ks) c).1 = [] ∧
    alookup (compiledAstNodesGet compileAstNodesExt substituteFunctions
        (runGets (compileAstNodesMemoFn compileAstNodesExt substituteFunctions)
          CacheState.empty ks) c).2.cache c = some [] ∧
    ∀ ks2 : List γ,
      alookup (runGets (compileAstNodesMemoFn compileAstNodesExt substituteFunctions)
          ((compiledAstNodesGet compileAstNodesExt substituteFunctions
            (runGets (compileAstNodesMemoFn compileAstNodesExt substituteFunctions)
              CacheState.empty ks) c).2) ks2).cache c = some [] ∧
      (runGets (compileAstNodesMemoFn compileAstNodesExt substituteFunctions)
          ((compiledAstNodesGet compileAstNodesExt substituteFunctions
            (runGets (compileAstNodesMemoFn compileAstNodesExt substituteFunctions)
              CacheState.empty ks) c).2) ks2).log.count c =
        ((compiledAstNodesGet compileAstNodesExt substituteFunctions
            (runGets (compileAstNodesMemoFn compileAstNodesExt substituteFunctions)
              CacheState.empty ks) c).2).log.count c := by
  have hval : compileAstNodesMemoFn compileAstNodesExt substituteFunctions c
      = fun _ => [] := by
    funext n
    simp [compileAstNodesMemoFn, hfail]
  have hfn : ∀ n, compileAstNodesMemoFn compileAstNodesExt substituteFunctions c n = [] := by
    intro n
    rw [hval]
  have h1 : (compiledAstNodesGet compileAstNodesExt substituteFunctions
      (runGets (compileAstNodesMemoFn compileAstNodesExt substituteFunctions)
        CacheState.empty ks) c).1 = [] := by
    unfold compiledAstNodesGet
    cases hc : alookup (runGets (compileAstNodesMemoFn compileAstNodesExt substituteFunctions)
        CacheState.empty ks).cache c with
    | some r =>
      obtain ⟨n, hn⟩ := runGets_cache_values _ ks c r hc
      rw [cacheGet_of_cached _ hc]
      rw [hn]
      exact hfn n
    | none =>
      simp only [cacheGet, hc]
      exact hfn _
  have h2 : alookup (compiledAstNodesGet compileAstNodesExt substituteFunctions
      (runGets (compileAstNodesMemoFn compileAstNodesExt substituteFunctions)
        CacheState.empty ks) c).2.cache c = some [] := by
    have := cacheGet_cache_self
      (compileAstNodesMemoFn compileAstNodesExt substituteFunctions)
      (runGets (compileAstNodesMemoFn compileAstNodesExt substituteFunctions)
        CacheState.empty ks) c
    unfold compiledAstNodesGet
    rw [← h1]
    exact this
  refine ⟨h1, h2, ?_⟩
  intro ks2
  exact runGets_preserve _ ks2 h2

/-- Witness for C2 at a concrete failing substitution: the hypothesis holds
by evaluation and the conclusions are evaluated at the concrete cache
history `[]` and candidate `0`. -/
theorem compileAstNodes_failure_contained_witness :
    substFailW (compileExtW 0) = Except.error () ∧
    (compiledAstNodesGet compileExtW substFailW
        (runGets (compileAstNodesMemoFn compileExtW substFailW)
          CacheState.empty []) 0).1 = [] :=
  ⟨rfl, (compileAstNodes_failure_contained compileExtW substFailW [] 0 rfl).1⟩

/-- C7: for a candidate that has not been compiled yet, two consecutive
`compileAstNodes` lookups invoke the external compiler and the substitution
pass exactly once in total: the invocation log for the candidate goes from
0 to 1 on the first call, the second call returns the identical result and
leaves the whole cache state untouched, and the log still counts 1. -/
theorem compileAstNodes_compile_once {γ ν : Type} [DecidableEq γ]
    (compileAstNodesExt : γ → List ν)
    (substituteFunctions : List ν → Except Unit (List ν))
    (ks : List γ) (c : γ) (hc : c ∉ ks) :
    (compiledAstNodesGet compileAstNodesExt substituteFunctions
        ((compiledAstNodesGet compileAstNodesExt substituteFunctions
          (runGets (compileAstNodesMemoFn compileAstNodesExt substituteFunctions)
            CacheState.empty ks) c).2) c).1 =
      (compiledAstNodesGet compileAstNodesExt substituteFunctions
        (runGets (compileAstNodesMemoFn compileAstNodesExt substituteFunctions)
          CacheState.empty ks) c).1 ∧
    (compiledAstNodesGet compileAstNodesExt substituteFunctions
        ((compiledAstNodesGet compileAstNodesExt substituteFunctions
          (runGets (compileAstNodesMemoFn compileAstNodesExt substituteFunctions)
            CacheState.empty ks) c).2) c).2 =
      (compiledAstNodesGet compileAstNodesExt substituteFunctions
        (runGets (compileAstNodesMemoFn compileAstNodesExt substituteFunctions)
          CacheState.empty ks) c).2 ∧
    (runGets (compileAstNodesMemoFn compileAstNodesExt substituteFunctions)
        CacheState.empty ks).log.count c = 0 ∧
    (compiledAstNodesGet compileAstNodesExt substituteFunctions
        (runGets (compileAstNodesMemoFn compileAstNodesExt substituteFunctions)
          CacheState.empty ks) c).2.log.count c = 1 := by
  have hcache0 : alookup (CacheState.empty : CacheState γ (List ν)).cache c = none := by
    simp [CacheState.empty, alookup]
  have hlog0 : c ∉ (CacheState.empty : CacheState γ (List ν)).log := by
    simp [CacheState.empty]
  have hstart := runGets_not_seen
    (compileAstNodesMemoFn compileAstNodesExt substituteFunctions) ks hcache0 hlog0 hc
  have hc0 : (runGets (compileAstNodesMemoFn compileAstNodesExt substituteFunctions)
      CacheState.empty ks).log.count c = 0 := List.count_eq_zero.mpr hstart.2
  have hself := cacheGet_cache_self
    (compileAstNodesMemoFn compileAstNodesExt substituteFunctions)
    (runGets (compileAstNodesMemoFn compileAstNodesExt substituteFunctions)
      CacheState.empty ks) c
  have hsecond := cacheGet_of_cached
    (compileAstNodesMemoFn compileAstNodesExt substituteFunctions) hself
  refine ⟨?_, ?_, hc0, ?_⟩
  · unfold compiledAstNodesGet
    rw [hsecond]
  · unfold compiledAstNodesGet
    rw [hsecond]
  · unfold compiledAstNodesGet
    simp [cacheGet, hstart.1, List.count_append, hc0, List.count_singleton]

/-- Witness for C7 at the concrete fresh candidate `0` with the empty call
history. -/
theorem compileAstNodes_compile_once_witness :
    (0 : Nat) ∉ ([] : List Nat) ∧
    (runGets (compileAstNodesMemoFn compileExtW substOkW)
        CacheState.empty ([] : List Nat)).log.count 0 = 0 ∧
    (compiledAstNodesGet compileExtW substOkW
        (runGets (compileAstNodesMemoFn compileExtW substOkW)
          CacheState.empty ([] : List Nat)) 0).2.log.count 0 = 1 := by
  have h := compileAstNodes_compile_once compileExtW substOkW [] 0 (by decide)
  exact ⟨by decide, h.2.2.1, h.2.2.2⟩

/-- C3: `candidatesToCss` returns one output per input in the same order, and
the entry at position `i` is a function of the class name at position `i`
alone: it is `null` exactly when optimizing the nodes compiled for that one
class yields zero nodes or the invalid callback fired for it, and otherwise
the serialized CSS text. Because each entry is computed from its own class
name only (the invalid flag is a fresh local per class), no entry can null
out or alter another. -/
theorem candidatesToCss_entries {ν : Type} (compileCandidates : String → List ν × Bool)
    (optimizeAst : List ν → List ν) (toCss : List ν → String)
    (classes : List String) :
    (candidatesToCss compileCandidates optimizeAst toCss classes).length = classes.length ∧
    ∀ i cls, classes.get? i = some cls →
      (candidatesToCss compileCandidates optimizeAst toCss classes).get? i =
        some (if (optimizeAst (compileCandidates cls).1).length = 0 ∨ (compileCandidates cls).2
              then none
              else some (toCss (optimizeAst (compileCandidates cls).1))) := by
  constructor
  · simp [candidatesToCss]
  · intro i cls h
    rw [List.get?_eq_getElem?] at h
    rw [List.get?_eq_getElem?, candidatesToCss, List.getElem?_map, h, Option.map_some']

/-- C8: scanning the value `var(--a, var(--b, red))` marks `--a` and `--b`
exactly once each: the nested `var()` inside the default-value argument is
discovered by the manual inner scan over the outer call's arguments, and the
outer traversal skips re-descending into that subtree, so nothing is marked
twice. -/
theorem trackUsedVariables_nested :
    trackUsedVariablesMarks ("var(--a, var(--b, red))".data) =
      ["--a".data, "--b".data] ∧
    (trackUsedVariablesMarks ("var(--a, var(--b, red))".data)).count ("--a".data) = 1 ∧
    (trackUsedVariablesMarks ("var(--a, var(--b, red))".data)).count ("--b".data) = 1 := by
  refine ⟨by decide, by decide, by decide⟩

lemma getVariantOrderLoop_eq_specAssignFrom {α : Type} (cmp : Option α → Option α → Int) :
    ∀ (L : List (Option α)) (prev : Option α) (index : Nat),
      getVariantOrderLoop cmp L prev index = specAssignFrom cmp prev index (L.filterMap id) := by
  intro L
  induction L with
  | nil => intro prev index; rfl
  | cons o rest ih =>
    intro prev index
    cases o with
    | none => simpa [getVariantOrderLoop, List.filterMap_cons] using ih prev index
    | some v =>
      cases prev with
      | none =>
        simp only [getVariantOrderLoop, List.filterMap_cons, id, specAssignFrom]
        exact congrArg _ (ih (some v) index)
      | some p =>
        simp only [getVariantOrderLoop, List.filterMap_cons, id, specAssignFrom]
        by_cases hnz : cmp (some p) (some v) ≠ 0
        · simp only [if_pos hnz]
          exact congrArg _ (ih (some v) (index + 1))
        · simp only [if_neg hnz]
          exact congrArg _ (ih (some v) index)

lemma specAssignFrom_some_eq_go {α : Type} (cmp : Option α → Option α → Int) :
    ∀ (V : List α) (p : α) (index : Nat),
      specAssignFrom cmp (some p) index V = specVariantOrderGo cmp p index V := by
  intro V
  induction V with
  | nil => intro p index; rfl
  | cons v rest ih =>
    intro p index
    simp only [specAssignFrom, specVariantOrderGo]
    by_cases h0 : cmp (some p) (some v) = 0
    · simp only [if_pos h0, if_neg (show ¬ cmp (some p) (some v) ≠ 0 by simp [h0])]
      exact congrArg _ (ih v index)
    · simp only [if_neg h0, if_pos h0]
      exact congrArg _ (ih v (index + 1))

lemma getVariantOrderLoop_keys_isSome {α : Type} (cmp : Option α → Option α → Int) :
    ∀ (L : List (Option α)) (prev : Option α) (index : Nat),
      ((getVariantOrderLoop cmp L prev index).all fun e => e.1.isSome) = true := by
  intro L
  induction L with
  | nil => intro prev index; rfl
  | cons o rest ih =>
    intro prev index
    cases o with
    | none => exact ih prev index
    | some v =>
      cases prev with
      | none => simpa [getVariantOrderLoop] using ih (some v) index
      | some p => simpa [getVariantOrderLoop] using ih (some v) _

/-- C4: `getVariantOrder` agrees with the spec's description of the
algorithm — sort the cached variant values with the registry comparator,
drop the explicit "no variant" value, give the first variant group index 0,
give each subsequent variant its predecessor's index when the comparator
reports 0 and the incremented index otherwise — and the null value is never
a key of the returned map (every key is a real variant). -/
theorem getVariantOrder_eq_spec {α : Type} (cmp : Option α → Option α → Int)
    (cached : List (Option α)) :
    getVariantOrder cmp cached = specVariantOrder cmp cached ∧
    ((getVariantOrder cmp cached).all fun e => e.1.isSome) = true := by
  constructor
  · unfold getVariantOrder specVariantOrder
    rw [getVariantOrderLoop_eq_specAssignFrom]
    cases hV : (List.insertionSort (jsSortLe cmp) cached).filterMap id with
    | nil => rfl
    | cons v rest =>
      simp only [specAssignFrom]
      exact congrArg _ (specAssignFrom_some_eq_go cmp rest v 0)
  · exact getVariantOrderLoop_keys_isSome cmp _ none 0

lemma cmp_zero_symm {α : Type} {cmp : Option α → Option α → Int}
    (hsym : ∀ x y, cmp x y < 0 ↔ cmp y x > 0) {x y : Option α}
    (h : cmp x y = 0) : cmp y x = 0 := by
  rcases lt_trichotomy (cmp y x) 0 with h1 | h1 | h1
  · have := (hsym y x).mp h1
    omega
  · exact h1
  · have := (hsym x y).mpr h1
    omega

lemma cmp_equiv_of_le_le {α : Type} {cmp : Option α → Option α → Int}
    (hsym : ∀ x y, cmp x y < 0 ↔ cmp y x > 0) {x y : Option α}
    (h1 : cmp x y ≤ 0) (h2 : cmp y x ≤ 0) : cmp x y = 0 := by
  rcases lt_or_eq_of_le h1 with h3 | h3
  · have := (hsym x y).mp h3
    omega
  · omega

lemma cmp_total {α : Type} {cmp : Option α → Option α → Int}
    (hsym : ∀ x y, cmp x y < 0 ↔ cmp y x > 0) (x y : Option α) :
    cmp x y ≤ 0 ∨ cmp y x ≤ 0 := by
  rcases lt_trichotomy (cmp x y) 0 with h1 | h1 | h1
  · omega
  · omega
  · have := (hsym y x).mpr h1
    omega

lemma cmp_self_not_neg {α : Type} {cmp : Option α → Option α → Int}
    (hsym : ∀ x y, cmp x y < 0 ↔ cmp y x > 0) (x : Option α) :
    ¬ cmp x x < 0 := by
  intro h
  have := (hsym x x).mp h
  omega

lemma specAssignFrom_key_mem {α : Type} {cmp : Option α → Option α → Int} :
    ∀ {V : List α} {prev : Option α} {index : Nat} {x : α} {nx : Nat},
      (some x, nx) ∈ specAssignFrom cmp prev index V → x ∈ V := by
  intro V
  induction V with
  | nil => intro prev index x nx h; simp [specAssignFrom] at h
  | cons v rest ih =>
    intro prev index x nx h
    simp only [specAssignFrom, List.mem_cons, Prod.mk.injEq] at h
    rcases h with ⟨h1, _⟩ | h1
    · rw [Option.some.injEq] at h1
      rw [h1]
      exact List.mem_cons_self v rest
    · exact List.mem_cons_of_mem v (ih h1)

lemma specAssignFrom_exists_mem {α : Type} (cmp : Option α → Option α → Int) :
    ∀ (V : List α) (prev : Option α) (index : Nat) (v : α), v ∈ V →
      ∃ n, (some v, n) ∈ specAssignFrom cmp prev index V := by
  intro V
  induction V with
  | nil => intro prev index v h; simp at h
  | cons w rest ih =>
    intro prev index v h
    rcases List.mem_cons.mp h with h1 | h1
    · subst h1
      exact ⟨_, List.mem_cons_self _ _⟩
    · obtain ⟨n, hn⟩ := ih (some w) _ v h1
      exact ⟨n, List.mem_cons_of_mem _ hn⟩

lemma specAssignFrom_idx_of_equiv {α : Type} {cmp : Option α → Option α → Int}
    (hsym : ∀ x y, cmp x y < 0 ↔ cmp y x > 0)
    (htrans : ∀ x y z, cmp x y ≤ 0 → cmp y z ≤ 0 → cmp x z ≤ 0) :
    ∀ (V : List α) (p : α) (index : Nat) (x : α) (nx : Nat),
      List.Pairwise (cmpSomeLe cmp) (p :: V) →
      (some x, nx) ∈ specAssignFrom cmp (some p) index V →
      cmp (some p) (some x) = 0 → nx = index := by
  intro V
  induction V with
  | nil => intro p index x nx _ hmem _; simp [specAssignFrom] at hmem
  | cons v rest ih =>
    intro p index x nx hpair hmem hx0
    have hpv : cmpSomeLe cmp p v := (List.pairwise_cons.mp hpair).1 v (List.mem_cons_self _ _)
    have hvpair : List.Pairwise (cmpSomeLe cmp) (v :: rest) := (List.pairwise_cons.mp hpair).2
    have hvrest : ∀ w ∈ rest, cmpSomeLe cmp v w := (List.pairwise_cons.mp hvpair).1
    simp only [specAssignFrom, List.mem_cons, Prod.mk.injEq] at hmem
    rcases hmem with ⟨hxv, hnx⟩ | hmem'
    · rw [Option.some.injEq] at hxv
      subst hxv
      rw [if_neg (show ¬ cmp (some p) (some x) ≠ 0 by simp [hx0])] at hnx
      exact hnx
    · have hxrest : x ∈ rest := specAssignFrom_key_mem hmem'
      have hlevx : cmp (some v) (some x) ≤ 0 := hvrest x hxrest
      have hlexp : cmp (some x) (some p) ≤ 0 := by
        have := cmp_zero_symm hsym hx0
        omega
      have hlevp : cmp (some v) (some p) ≤ 0 := htrans _ _ _ hlevx hlexp
      have hpv0 : cmp (some p) (some v) = 0 := cmp_equiv_of_le_le hsym hpv hlevp
      have hvx0 : cmp (some v) (some x) = 0 :=
        cmp_equiv_of_le_le hsym hlevx (htrans _ _ _ hlexp hpv)
      rw [if_neg (show ¬ cmp (some p) (some v) ≠ 0 by simp [hpv0])] at hmem'
      exact ih v index x nx hvpair hmem' hvx0

lemma specAssignFrom_idx_of_ne {α : Type} {cmp : Option α → Option α → Int}
    (hsym : ∀ x y, cmp x y < 0 ↔ cmp y x > 0)
    (htrans : ∀ x y z, cmp x y ≤ 0 → cmp y z ≤ 0 → cmp x z ≤ 0) :
    ∀ (V : List α) (p : α) (index : Nat) (x : α) (nx : Nat),
      List.Pairwise (cmpSomeLe cmp) (p :: V) →
      (some x, nx) ∈ specAssignFrom cmp (some p) index V →
      cmp (some p) (some x) ≠ 0 → index < nx := by
  intro V
  induction V with
  | nil => intro p index x nx _ hmem _; simp [specAssignFrom] at hmem
  | cons v rest ih =>
    intro p index x nx hpair hmem hxne
    have hpv : cmpSomeLe cmp p v := (List.pairwise_cons.mp hpair).1 v (List.mem_cons_self _ _)
    have hvpair : List.Pairwise (cmpSomeLe cmp) (v :: rest) := (List.pairwise_cons.mp hpair).2
    have hvrest : ∀ w ∈ rest, cmpSomeLe cmp v w := (List.pairwise_cons.mp hvpair).1
    simp only [specAssignFrom, List.mem_cons, Prod.mk.injEq] at hmem
    rcases hmem with ⟨hxv, hnx⟩ | hmem'
    · rw [Option.some.injEq] at hxv
      subst hxv
      rw [if_pos hxne] at hnx
      omega
    · have hxrest : x ∈ rest := specAssignFrom_key_mem hmem'
      by_cases hvx0 : cmp (some v) (some x) = 0
      · have hpvne : cmp (some p) (some v) ≠ 0 := by
          intro hpv0
          have hlevx : cmp (some v) (some x) ≤ 0 := by omega
          have hlexv : cmp (some x) (some v) ≤ 0 := by
            have := cmp_zero_symm hsym hvx0
            omega
          have hlevp : cmp (some v) (some p) ≤ 0 := by
            have := cmp_zero_symm hsym hpv0
            omega
          have hlepx : cmp (some p) (some x) ≤ 0 := htrans _ _ _ (by omega) hlevx
          have hlexp : cmp (some x) (some p) ≤ 0 := htrans _ _ _ hlexv hlevp
          exact hxne (cmp_equiv_of_le_le hsym hlepx hlexp)
        rw [if_pos hpvne] at hmem'
        have := specAssignFrom_idx_of_equiv hsym htrans rest v (index + 1) x nx hvpair hmem' hvx0
        omega
      · have hstep : index ≤ if cmp (some p) (some v) ≠ 0 then index + 1 else index := by
          split <;> omega
        have := ih v (if cmp (some p) (some v) ≠ 0 then index + 1 else index) x nx hvpair hmem' hvx0
        omega


lemma specAssignFrom_somes_eq {α : Type} {cmp : Option α → Option α → Int}
    (hsym : ∀ x y, cmp x y < 0 ↔ cmp y x > 0)
    (htrans : ∀ x y z, cmp x y ≤ 0 → cmp y z ≤ 0 → cmp x z ≤ 0) :
    ∀ (V : List α) (p : α) (index : Nat) (x : α) (nx : Nat) (y : α) (ny : Nat),
      List.Pairwise (cmpSomeLe cmp) (p :: V) →
      (some x, nx) ∈ specAssignFrom cmp (some p) index V →
      (some y, ny) ∈ specAssignFrom cmp (some p) index V →
      cmp (some x) (some y) = 0 → nx = ny := by
  intro V
  induction V with
  | nil => intro p index x nx y ny _ hx _ _; simp [specAssignFrom] at hx
  | cons v rest ih =>
    intro p index x nx y ny hpair hx hy hxy
    have hvpair : List.Pairwise (cmpSomeLe cmp) (v :: rest) := (List.pairwise_cons.mp hpair).2
    simp only [specAssignFrom, List.mem_cons, Prod.mk.injEq] at hx hy
    rcases hx with ⟨hxv, hnx⟩ | hx' <;> rcases hy with ⟨hyv, hny⟩ | hy'
    · omega
    · rw [Option.some.injEq] at hxv
      subst hxv
      subst hnx
      exact (specAssignFrom_idx_of_equiv hsym htrans rest x _ y ny hvpair hy' hxy).symm
    · rw [Option.some.injEq] at hyv
      subst hyv
      subst hny
      exact specAssignFrom_idx_of_equiv hsym htrans rest y _ x nx hvpair hx'
        (cmp_zero_symm hsym hxy)
    · exact ih v _ x nx y ny hvpair hx' hy' hxy

lemma specAssignFrom_somes_lt {α : Type} {cmp : Option α → Option α → Int}
    (hsym : ∀ x y, cmp x y < 0 ↔ cmp y x > 0)
    (htrans : ∀ x y z, cmp x y ≤ 0 → cmp y z ≤ 0 → cmp x z ≤ 0) :
    ∀ (V : List α) (p : α) (index : Nat) (x : α) (nx : Nat) (y : α) (ny : Nat),
      List.Pairwise (cmpSomeLe cmp) (p :: V) →
      (some x, nx) ∈ specAssignFrom cmp (some p) index V →
      (some y, ny) ∈ specAssignFrom cmp (some p) index V →
      cmp (some x) (some y) < 0 → nx < ny := by
  intro V
  induction V with
  | nil => intro p index x nx y ny _ hx _ _; simp [specAssignFrom] at hx
  | cons v rest ih =>
    intro p index x nx y ny hpair hx hy hxy
    have hvpair : List.Pairwise (cmpSomeLe cmp) (v :: rest) := (List.pairwise_cons.mp hpair).2
    have hvrest : ∀ w ∈ rest, cmpSomeLe cmp v w := (List.pairwise_cons.mp hvpair).1
    simp only [specAssignFrom, List.mem_cons, Prod.mk.injEq] at hx hy
    rcases hx with ⟨hxv, hnx⟩ | hx' <;> rcases hy with ⟨hyv, hny⟩ | hy'
    · rw [Option.some.injEq] at hxv hyv
      subst hxv
      subst hyv
      exact absurd hxy (cmp_self_not_neg hsym _)
    · rw [Option.some.injEq] at hxv
      subst hxv
      subst hnx
      exact specAssignFrom_idx_of_ne hsym htrans rest x _ y ny hvpair hy' (by omega)
    · rw [Option.some.injEq] at hyv
      subst hyv
      have hvx : cmpSomeLe cmp y x := hvrest x (specAssignFrom_key_mem hx')
      have : cmp (some y) (some x) > 0 := (hsym _ _).mp hxy
      exact absurd hvx (by unfold cmpSomeLe; omega)
    · exact ih v _ x nx y ny hvpair hx' hy' hxy

lemma specAssignFrom_none_eq {α : Type} {cmp : Option α → Option α → Int}
    (hsym : ∀ x y, cmp x y < 0 ↔ cmp y x > 0)
    (htrans : ∀ x y z, cmp x y ≤ 0 → cmp y z ≤ 0 → cmp x z ≤ 0)
    (V : List α) (x y : α) (nx ny : Nat)
    (hpair : List.Pairwise (cmpSomeLe cmp) V)
    (hx : (some x, nx) ∈ specAssignFrom cmp none 0 V)
    (hy : (some y, ny) ∈ specAssignFrom cmp none 0 V)
    (hxy : cmp (some x) (some y) = 0) : nx = ny := by
  cases V with
  | nil => simp [specAssignFrom] at hx
  | cons v rest =>
    simp only [specAssignFrom, List.mem_cons, Prod.mk.injEq] at hx hy
    rcases hx with ⟨hxv, hnx⟩ | hx' <;> rcases hy with ⟨hyv, hny⟩ | hy'
    · omega
    · rw [Option.some.injEq] at hxv
      subst hxv
      subst hnx
      exact (specAssignFrom_idx_of_equiv hsym htrans rest x 0 y ny hpair hy' hxy).symm
    · rw [Option.some.injEq] at hyv
      subst hyv
      subst hny
      exact specAssignFrom_idx_of_equiv hsym htrans rest y 0 x nx hpair hx'
        (cmp_zero_symm hsym hxy)
    · exact specAssignFrom_somes_eq hsym htrans rest v 0 x nx y ny hpair hx' hy' hxy

lemma specAssignFrom_none_lt {α : Type} {cmp : Option α → Option α → Int}
    (hsym : ∀ x y, cmp x y < 0 ↔ cmp y x > 0)
    (htrans : ∀ x y z, cmp x y ≤ 0 → cmp y z ≤ 0 → cmp x z ≤ 0)
    (V : List α) (x y : α) (nx ny : Nat)
    (hpair : List.Pairwise (cmpSomeLe cmp) V)
    (hx : (some x, nx) ∈ specAssignFrom cmp none 0 V)
    (hy : (some y, ny) ∈ specAssignFrom cmp none 0 V)
    (hxy : cmp (some x) (some y) < 0) : nx < ny := by
  cases V with
  | nil => simp [specAssignFrom] at hx
  | cons v rest =>
    have hvrest : ∀ w ∈ rest, cmpSomeLe cmp v w := (List.pairwise_cons.mp hpair).1
    simp only [specAssignFrom, List.mem_cons, Prod.mk.injEq] at hx hy
    rcases hx with ⟨hxv, hnx⟩ | hx' <;> rcases hy with ⟨hyv, hny⟩ | hy'
    · rw [Option.some.injEq] at hxv hyv
      subst hxv
      subst hyv
      exact absurd hxy (cmp_self_not_neg hsym _)
    · rw [Option.some.injEq] at hxv
      subst hxv
      subst hnx
      exact specAssignFrom_idx_of_ne hsym htrans rest x 0 y ny hpair hy' (by omega)
    · rw [Option.some.injEq] at hyv
      subst hyv
      have hvx : cmpSomeLe cmp y x := hvrest x (specAssignFrom_key_mem hx')
      have : cmp (some y) (some x) > 0 := (hsym _ _).mp hxy
      exact absurd hvx (by unfold cmpSomeLe; omega)
    · exact specAssignFrom_somes_lt hsym htrans rest v 0 x nx y ny hpair hx' hy' hxy

lemma mem_filterMap_id_iff {α : Type} {L : List (Option α)} {v : α} :
    v ∈ L.filterMap id ↔ some v ∈ L := by
  induction L with
  | nil => simp
  | cons o rest ih =>
    cases o with
    | none => simp [List.filterMap_cons, ih]
    | some w => simp [List.filterMap_cons, ih]

lemma pairwise_filterMap_id {α : Type} {cmp : Option α → Option α → Int}
    {L : List (Option α)} (h : List.Pairwise (jsSortLe cmp) L) :
    List.Pairwise (cmpSomeLe cmp) (L.filterMap id) := by
  induction L with
  | nil => simp
  | cons o rest ih =>
    have hrel := (List.pairwise_cons.mp h).1
    have hrest := (List.pairwise_cons.mp h).2
    cases o with
    | none => simpa [List.filterMap_cons] using ih hrest
    | some v =>
      simp only [List.filterMap_cons, id]
      refine List.pairwise_cons.mpr ⟨?_, ih hrest⟩
      intro w hw
      exact hrel (some w) (mem_filterMap_id_iff.mp hw)

/-- C5 (amended): for parsed variants `a`, `b`, `c` in the variant cache with
a consistent registry comparator (antisymmetric in sign and transitive, as a
total-order comparator is), `compare(a,b) = 0` and `compare(b,c) > 0`, the
order map produced by `getVariantOrder` gives `a` and `b` the same group
index and gives `c` a strictly SMALLER group index than `a` and `b`: the JS
sort convention puts `c` before `b` when `compare(b,c) > 0`, so `c` lands in
an earlier group. (The claim as frozen says strictly greater; the
counterexample refutes that direction.) -/
theorem getVariantOrder_grouping {α : Type} (cmp : Option α → Option α → Int)
    (a b c : α) (cached : List (Option α))
    (hsym : ∀ x y, cmp x y < 0 ↔ cmp y x > 0)
    (htrans : ∀ x y z, cmp x y ≤ 0 → cmp y z ≤ 0 → cmp x z ≤ 0)
    (ha : some a ∈ cached) (hb : some b ∈ cached) (hc : some c ∈ cached)
    (hab : cmp (some a) (some b) = 0) (hbc : cmp (some b) (some c) > 0) :
    ∃ na nb nc, (some a, na) ∈ getVariantOrder cmp cached ∧
      (some b, nb) ∈ getVariantOrder cmp cached ∧
      (some c, nc) ∈ getVariantOrder cmp cached ∧
      na = nb ∧ nc < na ∧ nc < nb := by
  letI : IsTotal (Option α) (jsSortLe cmp) := ⟨fun x y => cmp_total hsym x y⟩
  letI : IsTrans (Option α) (jsSortLe cmp) := ⟨fun x y z => htrans x y z⟩
  have horder : getVariantOrder cmp cached =
      specAssignFrom cmp none 0
        ((List.insertionSort (jsSortLe cmp) cached).filterMap id) := by
    unfold getVariantOrder
    rw [getVariantOrderLoop_eq_specAssignFrom]
  have hsorted : List.Pairwise (jsSortLe cmp) (List.insertionSort (jsSortLe cmp) cached) :=
    List.sorted_insertionSort (jsSortLe cmp) cached
  have hpair := pairwise_filterMap_id hsorted
  have hmemV : ∀ v : α, some v ∈ cached →
      v ∈ (List.insertionSort (jsSortLe cmp) cached).filterMap id := by
    intro v hv
    exact mem_filterMap_id_iff.mpr ((List.mem_insertionSort (jsSortLe cmp)).mpr hv)
  obtain ⟨na, hna⟩ := specAssignFrom_exists_mem cmp _ none 0 a (hmemV a ha)
  obtain ⟨nb, hnb⟩ := specAssignFrom_exists_mem cmp _ none 0 b (hmemV b hb)
  obtain ⟨nc, hnc⟩ := specAssignFrom_exists_mem cmp _ none 0 c (hmemV c hc)
  have heq : na = nb := specAssignFrom_none_eq hsym htrans _ a b na nb hpair hna hnb hab
  have hca : cmp (some c) (some a) < 0 := by
    have hcb : cmp (some c) (some b) < 0 := (hsym (some c) (some b)).mpr hbc
    have hba : cmp (some b) (some a) = 0 := cmp_zero_symm hsym hab
    have hcale : cmp (some c) (some a) ≤ 0 :=
      htrans (some c) (some b) (some a) (by omega) (by omega)
    have hcane : cmp (some c) (some a) ≠ 0 := by
      intro h0
      have hac : cmp (some a) (some c) = 0 := cmp_zero_symm hsym h0
      have : cmp (some b) (some c) ≤ 0 :=
        htrans (some b) (some a) (some c) (by omega) (by omega)
      omega
    omega
  have hlt : nc < na := specAssignFrom_none_lt hsym htrans _ c a nc na hpair hnc hna hca
  rw [horder]
  exact ⟨na, nb, nc, hna, hnb, hnc, heq, hlt, by omega⟩

/-- Counterexample to C5 as frozen: with the consistent comparator `cmpEx`
(`compare(a,b) = 0`, `compare(b,c) > 0` for `a = some 0`, `b = some 1`,
`c = some 2`, all present in the cache), `getVariantOrder` assigns `c` group
index 0 and `a`, `b` group index 1, so `c` gets a strictly SMALLER index
than `a` and `b`, not a strictly greater one. -/
theorem getVariantOrder_grouping_counterexample :
    cmpEx (some 0) (some 1) = 0 ∧ cmpEx (some 1) (some 2) > 0 ∧
    some 0 ∈ cachedEx ∧ some 1 ∈ cachedEx ∧ some 2 ∈ cachedEx ∧
    getVariantOrder cmpEx cachedEx = [(some 2, 0), (some 0, 1), (some 1, 1)] ∧
    ¬ (0 : Nat) > 1 := by
  refine ⟨by decide, by decide, by decide, by decide, by decide, by decide, by decide⟩

/-- Witness for the amended C5 at the concrete comparator `cmpEx` and cache
`cachedEx`; every hypothesis of the theorem is discharged at this input. -/
theorem getVariantOrder_grouping_witness :
    cmpEx (some 0) (some 1) = 0 ∧ cmpEx (some 1) (some 2) > 0 ∧
    ∃ na nb nc, (some 0, na) ∈ getVariantOrder cmpEx cachedEx ∧
      (some 1, nb) ∈ getVariantOrder cmpEx cachedEx ∧
      (some 2, nc) ∈ getVariantOrder cmpEx cachedEx ∧
      na = nb ∧ nc < na ∧ nc < nb := by
  have hsymEx : ∀ x y : Option Nat, cmpEx x y < 0 ↔ cmpEx y x > 0 := by
    intro x y
    unfold cmpEx
    omega
  have htransEx : ∀ x y z : Option Nat,
      cmpEx x y ≤ 0 → cmpEx y z ≤ 0 → cmpEx x z ≤ 0 := by
    intro x y z
    unfold cmpEx
    omega
  refine ⟨by decide, by decide, ?_⟩
  exact getVariantOrder_grouping cmpEx 0 1 2 cachedEx hsymEx htransEx
    (by decide) (by decide) (by decide) (by decide) (by decide)

lemma jsLastIndexOf_eq_none_of_not_mem {c : Char} {s : List Char} (h : c ∉ s) :
    jsLastIndexOf c s = none := by
  induction s with
  | nil => rfl
  | cons x xs ih =>
    have hx : x ≠ c := fun he => h (by rw [he]; exact List.mem_cons_self _ _)
    have hxs : c ∉ xs := fun hm => h (List.mem_cons_of_mem _ hm)
    simp [jsLastIndexOf, ih hxs, hx]

lemma jsLastIndexOf_append_cons {p q : List Char} (h : '/' ∉ q) :
    jsLastIndexOf '/' (p ++ '/' :: q) = some p.length := by
  induction p with
  | nil => simp [jsLastIndexOf, jsLastIndexOf_eq_none_of_not_mem h]
  | cons x xs ih => simp [jsLastIndexOf, ih]

lemma take_append_length (p l : List Char) : (p ++ l).take p.length = p := by
  induction p with
  | nil => rfl
  | cons x xs ih => simp only [List.cons_append, List.length_cons, List.take_succ_cons, List.drop_succ_cons, List.cons.injEq, true_and]; exact ih

lemma drop_append_length_succ (p : List Char) (c : Char) (q : List Char) :
    (p ++ c :: q).drop (p.length + 1) = q := by
  induction p with
  | nil => rfl
  | cons x xs ih => simp only [List.cons_append, List.length_cons, List.take_succ_cons, List.drop_succ_cons, List.cons.injEq, true_and]; exact ih

lemma resolveThemeSplit_append {p q : List Char} (h : '/' ∉ q) :
    resolveThemeSplit (p ++ '/' :: q) = (jsTrim p, some (jsTrim q)) := by
  unfold resolveThemeSplit
  rw [jsLastIndexOf_append_cons h]
  simp [take_append_length, drop_append_length_succ]

lemma resolveThemeSplit_no_slash {path : List Char} (h : '/' ∉ path) :
    resolveThemeSplit path = (path, none) := by
  unfold resolveThemeSplit
  rw [jsLastIndexOf_eq_none_of_not_mem h]

lemma resolveThemeValue_append (withAlpha : List Char → List Char → List Char)
    (themeGet : List Char → NullableStr) {p q : List Char} (hq : '/' ∉ q) :
    resolveThemeValue withAlpha themeGet (p ++ '/' :: q) =
      match themeGet (jsTrim p) with
      | NullableStr.nul => none
      | NullableStr.val v =>
        if jsTrim q ≠ [] ∧ v ≠ [] then some (withAlpha v (jsTrim q)) else some v := by
  unfold resolveThemeValue
  rw [resolveThemeSplit_append hq]
  cases h' : themeGet (jsTrim p) with
  | nul => simp [h', undefinedCoalesce]
  | val v => simp [h', undefinedCoalesce]

lemma resolveThemeValue_no_slash (withAlpha : List Char → List Char → List Char)
    (themeGet : List Char → NullableStr) {path : List Char} (h : '/' ∉ path) :
    resolveThemeValue withAlpha themeGet path = undefinedCoalesce (themeGet path) := by
  unfold resolveThemeValue
  rw [resolveThemeSplit_no_slash h]

/-- C6 (amended): `resolveThemeValue` splits at the last `/` when present
into trimmed lookup path and trimmed modifier, otherwise uses the whole
string with no modifier; it returns undefined when the theme lacks the
lookup path, regardless of the modifier; and with a modifier present it
applies `withAlpha(value, modifier)` only when both the trimmed modifier
and the resolved value are non-empty strings — otherwise (empty modifier
after trimming, or empty-string theme value) the resolved value is returned
unchanged. (The frozen claim promised `withAlpha` whenever a value and a
modifier exist; the counterexample shows the truthiness guards.) -/
theorem resolveThemeValue_amended_spec
    (withAlpha : List Char → List Char → List Char)
    (themeGet : List Char → NullableStr)
    (p q path : List Char) (hq : '/' ∉ q) (hpath : '/' ∉ path) :
    (resolveThemeValue withAlpha themeGet (p ++ '/' :: q) =
      match themeGet (jsTrim p) with
      | NullableStr.nul => none
      | NullableStr.val v =>
        if jsTrim q ≠ [] ∧ v ≠ [] then some (withAlpha v (jsTrim q)) else some v) ∧
    resolveThemeValue withAlpha themeGet path = undefinedCoalesce (themeGet path) :=
  ⟨resolveThemeValue_append withAlpha themeGet hq,
    resolveThemeValue_no_slash withAlpha themeGet hpath⟩

/-- Witness for the amended C6: with the concrete theme (`--y` resolves to
`red`) and modifier `50%` the alpha transform fires; with no slash the raw
value is returned. -/
theorem resolveThemeValue_amended_spec_witness :
    '/' ∉ (" 50%".data) ∧ '/' ∉ ("--y".data) ∧
    (resolveThemeValue waEx tgEx ("--y ".data ++ '/' :: (" 50%".data)) =
      match tgEx (jsTrim ("--y ".data)) with
      | NullableStr.nul => none
      | NullableStr.val v =>
        if jsTrim (" 50%".data) ≠ [] ∧ v ≠ [] then
          some (waEx v (jsTrim (" 50%".data)))
        else some v) ∧
    resolveThemeValue waEx tgEx ("--y".data) = undefinedCoalesce (tgEx ("--y".data)) := by
  have h := resolveThemeValue_amended_spec waEx tgEx ("--y ".data) (" 50%".data)
    ("--y".data) (by decide) (by decide)
  exact ⟨by decide, by decide, h.1, h.2⟩

/-- Counterexample to C6 as frozen: (1) the theme maps `--x` to the empty
string; for `--x / 50%` a modifier is supplied and the theme has a value,
yet the result is that value unchanged, not `withAlpha(value, modifier)`.
(2) the theme maps `--y` to `red`; for `--y /` the modifier separator is
present (the trimmed modifier is the empty string), yet the result is `red`
unchanged, not `withAlpha`. -/
theorem resolveThemeValue_counterexample :
    tgEx ("--x".data) = NullableStr.val [] ∧
    resolveThemeSplit ("--x / 50%".data) = ("--x".data, some ("50%".data)) ∧
    resolveThemeValue waEx tgEx ("--x / 50%".data) = some [] ∧
    some ([] : List Char) ≠ some (waEx [] ("50%".data)) ∧
    tgEx ("--y".data) = NullableStr.val ("red".data) ∧
    resolveThemeSplit ("--y /".data) = ("--y".data, some []) ∧
    resolveThemeValue waEx tgEx ("--y /".data) = some ("red".data) ∧
    some ("red".data) ≠ some (waEx ("red".data) []) := by
  refine ⟨by decide, by decide, by decide, by decide, by decide, by decide, by decide,
    by decide⟩

/-- C9: when the text after the last `/` is empty or whitespace-only (for
example a path ending in `/`), `resolveThemeValue` does not apply the alpha
transform and returns the theme value of the trimmed prefix unchanged, even
though a modifier separator was present. -/
theorem resolveThemeValue_empty_modifier
    (withAlpha : List Char → List Char → List Char)
    (themeGet : List Char → NullableStr)
    (p q : List Char) (hq : '/' ∉ q) (htrim : jsTrim q = []) :
    resolveThemeValue withAlpha themeGet (p ++ '/' :: q) =
      undefinedCoalesce (themeGet (jsTrim p)) := by
  rw [resolveThemeValue_append withAlpha themeGet hq]
  cases h' : themeGet (jsTrim p) with
  | nul => simp [undefinedCoalesce]
  | val v => simp [undefinedCoalesce, htrim]

/-- Witness for C9 at the concrete path `--y / ` (whitespace-only modifier
text) with the concrete theme mapping `--y` to `red`. -/
theorem resolveThemeValue_empty_modifier_witness :
    '/' ∉ (" ".data) ∧ jsTrim (" ".data) = [] ∧
    resolveThemeValue waEx tgEx ("--y ".data ++ '/' :: (" ".data)) =
      undefinedCoalesce (tgEx (jsTrim ("--y ".data))) :=
  ⟨by decide, by decide,
    resolveThemeValue_empty_modifier waEx tgEx ("--y ".data) (" ".data)
      (by decide) (by decide)⟩

/-- C10: when the theme collaborator's `get` returns null for the lookup
path, `resolveThemeValue` returns undefined (`none`): the null is coerced
and the public interface never produces a null of its own (its result type
has only `some` and undefined). -/
theorem resolveThemeValue_null_coerced
    (withAlpha : List Char → List Char → List Char)
    (themeGet : List Char → NullableStr) (path : List Char)
    (h : themeGet (resolveThemeSplit path).1 = NullableStr.nul) :
    resolveThemeValue withAlpha themeGet path = none := by
  simp only [resolveThemeValue, h, undefinedCoalesce]
  cases (resolveThemeSplit path).2 <;> rfl

/-- Witness for C10 at the concrete path `--zzz`, absent from the concrete
theme. -/
theorem resolveThemeValue_null_coerced_witness :
    tgEx (resolveThemeSplit ("--zzz".data)).1 = NullableStr.nul ∧
    resolveThemeValue waEx tgEx ("--zzz".data) = none :=
  ⟨by decide, resolveThemeValue_null_coerced waEx tgEx ("--zzz".data) (by decide)⟩
